import Mathlib

/-!
Shallow embedding of the mayajiva navigation core
(src/modules/mayajiva/src/core/{landscape,compass,ring_attractor,path_integration,bug}.hpp)
and proofs about the spec's claims.  C++ doubles are modelled as real numbers;
std::mt19937 + distribution draws are modelled as an abstract stream of variates
(a function from the draw index to the drawn value), consumed in program order.
-/

namespace Mayajiva

open Real

noncomputable section

open Classical

/-! ## C++ numeric primitives -/

/-- Truncation toward zero, as C++ float-to-int conversion and std::fmod use. -/
def truncR (x : ℝ) : ℤ := if 0 ≤ x then ⌊x⌋ else ⌈x⌉

/-- std::fmod(a, m): remainder with the sign of the dividend. -/
def fmodR (a m : ℝ) : ℝ := a - m * (truncR (a / m) : ℝ)

/-- The recurring wrap-to-[-pi, pi) pattern:
fmod(d + pi, 2 pi); if negative add 2 pi; subtract pi. -/
def wrapPi (d : ℝ) : ℝ :=
  let m := fmodR (d + π) (2 * π)
  (if m < 0 then m + 2 * π else m) - π

/-- The wrap-to-[0, 2 pi) pattern: fmod(h, 2 pi); if negative add 2 pi. -/
def wrap2pi (h : ℝ) : ℝ :=
  let m := fmodR h (2 * π)
  if m < 0 then m + 2 * π else m

/-- std::clamp(v, lo, hi). -/
def clampR (v lo hi : ℝ) : ℝ := if v < lo then lo else if hi < v then hi else v

/-- std::atan2(y, x), i.e. the argument of the complex number x + y i. -/
def atan2 (y x : ℝ) : ℝ := Complex.arg ⟨x, y⟩

/-! ## Landscape (landscape.hpp) -/

structure GaussianAnomaly where
  px : ℝ
  py : ℝ
  strength : ℝ
  radius : ℝ

structure DipoleAnomaly where
  px : ℝ
  py : ℝ
  strength : ℝ
  depth : ℝ

structure FaultAnomaly where
  px : ℝ
  py : ℝ
  azimuth : ℝ
  contrast : ℝ
  width : ℝ

structure GradientAnomaly where
  magnitude : ℝ
  direction : ℝ
  ref_x : ℝ
  ref_y : ℝ

inductive Anomaly where
  | gaussian (a : GaussianAnomaly)
  | dipole (a : DipoleAnomaly)
  | fault (a : FaultAnomaly)
  | gradient (a : GradientAnomaly)

/-- Result of a magnetic field query at a point. -/
structure FieldResult where
  direction : ℝ
  intensity : ℝ
  inclination : ℝ

structure Landscape where
  width : ℝ
  height : ℝ
  B0 : ℝ
  declination : ℝ
  inclination : ℝ
  anomalies : List Anomaly

def Landscape.B_horizontal (L : Landscape) : ℝ := L.B0 * Real.cos L.inclination

def Landscape.B_vertical (L : Landscape) : ℝ := L.B0 * Real.sin L.inclination

/-- Landscape::perturbation overloads, dispatched over the anomaly variant. -/
def perturbation (x y : ℝ) : Anomaly → ℝ × ℝ × ℝ
  | .gaussian a =>
      let dx := x - a.px
      let dy := y - a.py
      let r := Real.sqrt (dx * dx + dy * dy)
      if 3 * a.radius ≤ r then (0, 0, 0)
      else
        let envelope := a.strength * Real.exp (-0.5 * (r / a.radius) * (r / a.radius))
        if r < 1e-6 then (0, 0, 0)
        else (envelope * dx / r, envelope * dy / r, 0)
  | .dipole a =>
      let dx := x - a.px
      let dy := y - a.py
      let rho2 := dx * dx + dy * dy
      let R2 := rho2 + a.depth * a.depth
      let R5 := R2 ^ (2.5 : ℝ)
      let alpha := a.strength * (5 : ℝ) ^ (2.5 : ℝ) * a.depth ^ (3 : ℝ) / 48
      (alpha * 3 * a.depth * dx / R5, alpha * 3 * a.depth * dy / R5,
        alpha * (2 * a.depth * a.depth - rho2) / R5)
  | .fault a =>
      let d_perp := (x - a.px) * Real.sin a.azimuth - (y - a.py) * Real.cos a.azimuth
      let profile := Real.tanh (d_perp / a.width)
      ((a.contrast / 2) * profile * Real.sin a.azimuth,
        -(a.contrast / 2) * profile * Real.cos a.azimuth, 0)
  | .gradient a =>
      let s := (x - a.ref_x) * Real.cos a.direction + (y - a.ref_y) * Real.sin a.direction
      (a.magnitude * s * Real.cos a.direction, a.magnitude * s * Real.sin a.direction, 0)

/-- Landscape::magnetic_direction: background field plus anomaly perturbations
summed in insertion order, then decoded into direction/intensity/inclination. -/
def Landscape.magnetic_direction (L : Landscape) (x y : ℝ) : FieldResult :=
  let B := L.anomalies.foldl
    (fun (B : ℝ × ℝ × ℝ) anom =>
      let p := perturbation x y anom
      (B.1 + p.1, B.2.1 + p.2.1, B.2.2 + p.2.2))
    (L.B_horizontal * Real.cos L.declination, L.B_horizontal * Real.sin L.declination,
      L.B_vertical)
  let B_h := Real.sqrt (B.1 * B.1 + B.2.1 * B.2.1)
  ⟨atan2 B.2.1 B.1, B_h, atan2 B.2.2 B_h⟩

/-- Landscape::direction_deviation. -/
def Landscape.direction_deviation (L : Landscape) (x y : ℝ) : ℝ :=
  wrapPi ((L.magnetic_direction x y).direction - L.declination)

/-- Landscape::in_bounds: closed rectangle test. -/
def Landscape.in_bounds (L : Landscape) (x y : ℝ) : Prop :=
  0 ≤ x ∧ x ≤ L.width ∧ 0 ≤ y ∧ y ≤ L.height

/-! ## CompassSensor (compass.hpp) -/

/-- Analytical singlet yield. -/
def singlet_yield (alpha contrast mean_yield : ℝ) : ℝ :=
  mean_yield + 0.5 * (contrast * mean_yield) * (1 + Real.cos (2 * alpha))

/-- Molecule k's orientation among n_cry molecules: 2 pi k / n. -/
def cryPhi (n k : ℕ) : ℝ := 2 * π * k / n

/-- Channel c's centre among the 8 channels: 2 pi c / 8. -/
def channelCentre (c : Fin 8) : ℝ := 2 * π * c / 8

/-- The nearest-channel assignment loop of init_molecules for molecule k:
strict improvement over channels in ascending order, starting from the
sentinel distance 1e30 and channel 0. -/
def assignChannel (n k : ℕ) : Fin 8 :=
  ((List.finRange 8).foldl
    (fun best c =>
      let d := |wrapPi (cryPhi n k - channelCentre c)|
      if d < best.1 then (d, c) else best)
    ((1e30 : ℝ), (0 : Fin 8))).2

/-- Channel membership counts of init_molecules. -/
def channel_counts (n : ℕ) (c : Fin 8) : ℕ :=
  (List.range n).countP (fun k => assignChannel n k == c)

/-- The accumulation loop of CompassSensor::read: per-molecule yields, with
optional sensor noise, summed into the molecule's assigned channel. -/
def compassSums (n : ℕ) (contrast mean_yield sigma heading : ℝ) (noise : ℕ → ℝ) :
    Fin 8 → ℝ :=
  (List.range n).foldl
    (fun sums k =>
      let alpha := heading - cryPhi n k
      let y0 := singlet_yield alpha contrast mean_yield
      let y := if 0 < sigma then y0 + sigma * noise k else y0
      Function.update sums (assignChannel n k) (sums (assignChannel n k) + y))
    (fun _ => 0)

/-- CompassSensor::read: population-averaged noisy singlet yield per channel;
a channel with no assigned molecules reads 0. -/
def compassRead (n : ℕ) (contrast mean_yield sigma heading : ℝ) (noise : ℕ → ℝ)
    (c : Fin 8) : ℝ :=
  if 0 < channel_counts n c then
    compassSums n contrast mean_yield sigma heading noise c / channel_counts n c
  else 0

/-! ## RingAttractor (ring_attractor.hpp), N = 8 -/

structure RAParams where
  tau : ℝ
  w_exc : ℝ
  w_inh : ℝ
  g_mag : ℝ
  g_omega : ℝ
  threshold : ℝ
  r_max : ℝ
  noise_sigma : ℝ

/-- Preferred direction of ring unit i: theta_i = 2 pi i / 8. -/
def raTheta (i : Fin 8) : ℝ := 2 * π * i / 8

/-- Excitatory weight matrix W_ij = w_exc * max(0, cos(theta_i - theta_j)). -/
def raW (p : RAParams) (i j : Fin 8) : ℝ :=
  p.w_exc * max 0 (Real.cos (raTheta i - raTheta j))

/-- Population vector of the rate state: sum of r_i exp(theta_i I). -/
def raZ (r : Fin 8 → ℝ) : ℂ :=
  ∑ i, (r i : ℂ) * Complex.exp ((raTheta i : ℂ) * Complex.I)

/-- RingAttractor::heading: population-vector decode in [0, 2 pi), or 0 for a
degenerate (near-flat) state. -/
def raHeading (r : Fin 8 → ℝ) : ℝ :=
  if Complex.abs (raZ r) < 1e-10 then 0
  else
    let h := Complex.arg (raZ r)
    if h < 0 then h + 2 * π else h

/-- RingAttractor::bump_amplitude: max(r) - min(r). -/
def bump_amplitude (r : Fin 8 → ℝ) : ℝ :=
  (Finset.univ.sup' Finset.univ_nonempty r) - (Finset.univ.inf' Finset.univ_nonempty r)

/-- RingAttractor::step.  The compass input is optional; the per-unit noise
values are passed in (zero when noise_sigma is zero, sigma-scaled standard
normal draws otherwise, exactly as the C++ code fills its noise array). -/
def raStep (p : RAParams) (dt : ℝ) (r : Fin 8 → ℝ) (compass : Option (Fin 8 → ℝ))
    (angular_velocity : ℝ) (noise : Fin 8 → ℝ) : Fin 8 → ℝ :=
  let exc : Fin 8 → ℝ := fun i => ∑ j, raW p i j * r j
  let inh : ℝ := p.w_inh * ((∑ i, r i) / 8)
  let I_mag : Fin 8 → ℝ :=
    match compass with
    | none => fun _ => 0
    | some ci =>
        let mean_c := (∑ i, ci i) / 8
        let z := ∑ i, ((ci i - mean_c : ℝ) : ℂ) * Complex.exp ((2 * raTheta i : ℂ) * Complex.I)
        if 1e-10 < Complex.abs z then
          let double_heading := Complex.arg z
          let double_bump := 2 * raHeading r
          let error := Complex.arg (Complex.exp (((double_heading - double_bump : ℝ) : ℂ) * Complex.I)) / 2
          fun i => p.g_mag * error * (r (i - 1) - r (i + 1))
        else fun _ => 0
  let I_omega : Fin 8 → ℝ :=
    if angular_velocity ≠ 0 then
      fun i => p.g_omega * angular_velocity * (r (i - 1) - r (i + 1))
    else fun _ => 0
  fun i =>
    let drive := exc i - inh + I_mag i + I_omega i - p.threshold + noise i
    let activated := clampR drive 0 p.r_max
    clampR (r i + (-r i + activated) / p.tau * dt) 0 p.r_max

/-- RingAttractor::reset with a nonnegative heading argument: cosine bump
centred on the given heading. -/
def raReset (heading : ℝ) : Fin 8 → ℝ :=
  fun i => max 0 (0.5 * Real.cos (wrapPi (raTheta i - heading)))

/-- The construction defaults of the ring attractor, with zero noise. -/
def raDefault : RAParams :=
  ⟨0.05, 1.5, 4.5, 2, 0.5, 0, 1, 0⟩

/-- Rotation of a rate state by j ring positions. -/
def rotB (j : Fin 8) (r : Fin 8 → ℝ) : Fin 8 → ℝ := fun i => r (i - j)

/-- The invariant region of the no-input default dynamics started from a
cosine bump at unit direction 0: units 2..6 silent, units 1 and 7 equal
side lobes in [sqrt(2)/4, 1], unit 0 the peak in [1/2, 1]. -/
def stableD (r : Fin 8 → ℝ) : Prop :=
  r 2 = 0 ∧ r 3 = 0 ∧ r 4 = 0 ∧ r 5 = 0 ∧ r 6 = 0 ∧ r 7 = r 1
  ∧ 1 / 2 ≤ r 0 ∧ r 0 ≤ 1 ∧ Real.sqrt 2 / 4 ≤ r 1 ∧ r 1 ≤ 1

/-! ## CPU4 path integrator (path_integration.hpp), N = 8 -/

/-- CPU4 preferred direction phi_i = 2 pi i / 8. -/
def cpu4Phi (i : Fin 8) : ℝ := 2 * π * i / 8

/-- CPU4::update: rectified cosine-tuned velocity drive, optional leak. -/
def cpu4_update (leak gain heading speed dt : ℝ) (m : Fin 8 → ℝ) : Fin 8 → ℝ :=
  fun i =>
    let cos_val := Real.cos (heading - cpu4Phi i)
    let drive := gain * speed * max cos_val 0
    (if 0 < leak then m i * (1 - leak * dt) else m i) + drive * dt

/-- CPU4::displacement: vector decode of the memory. -/
def displacement (m : Fin 8 → ℝ) : ℝ × ℝ :=
  (∑ i, m i * Real.cos (cpu4Phi i), ∑ i, m i * Real.sin (cpu4Phi i))

structure HomeVector where
  distance : ℝ
  direction : ℝ

/-- CPU4::home_vector: distance and direction back toward the origin. -/
def home_vector (m : Fin 8 → ℝ) : HomeVector :=
  let d := displacement m
  ⟨Real.sqrt (d.1 * d.1 + d.2 * d.2), atan2 (-d.2) (-d.1)⟩

/-! ## Bug (bug.hpp) -/

/-- State snapshot for trajectory recording. -/
structure BugState where
  x : ℝ
  y : ℝ
  heading : ℝ
  estimated_heading : ℝ
  bump_amplitude : ℝ

/-- Parameters for Bug construction, mirroring BugParams. -/
structure BugParams where
  x0 : ℝ
  y0 : ℝ
  heading0 : ℝ
  goal_heading : ℝ
  speed : ℝ
  kappa : ℝ
  sigma_theta : ℝ
  sigma_xy : ℝ
  n_cry : ℕ
  contrast : ℝ
  mean_yield : ℝ
  sigma_sensor : ℝ
  ra_tau : ℝ
  ra_w_exc : ℝ
  ra_w_inh : ℝ
  ra_g_mag : ℝ
  ra_g_omega : ℝ
  ra_noise_sigma : ℝ
  cpu4_leak : ℝ
  cpu4_gain : ℝ

/-- The C++ default parameter set (seed excluded: the pseudorandom stream is
abstracted as a function from draw index to variate). -/
def bugDefaults : BugParams :=
  ⟨500, 100, -1, 3 * π / 4, 1, 2, 0.1, 0.05, 1000, 0.15, 0.5, 0.02,
    0.05, 1.5, 4.5, 2, 0.5, 0.01, 0, 1⟩

/-- The ring-attractor parameters a Bug constructs (threshold 0, r_max 1). -/
def bugRA (p : BugParams) : RAParams :=
  ⟨p.ra_tau, p.ra_w_exc, p.ra_w_inh, p.ra_g_mag, p.ra_g_omega, 0, 1, p.ra_noise_sigma⟩

/-- Full simulation state of a Bug: pose, sub-component states, the position
in the pseudorandom stream, and the recorded history. -/
structure BugS where
  x : ℝ
  y : ℝ
  heading : ℝ
  r : Fin 8 → ℝ
  m : Fin 8 → ℝ
  idx : ℕ
  history : List BugState

/-- Number of stream draws one compass read consumes. -/
def nCompassDraws (p : BugParams) : ℕ := if 0 < p.sigma_sensor then p.n_cry else 0

/-- Number of stream draws one ring-attractor step consumes. -/
def nRaDraws (p : BugParams) : ℕ := if 0 < p.ra_noise_sigma then 8 else 0

/-- Bug::Bug: resolve the initial heading (drawing from the stream when the
configured heading is negative), seed the attractor bump from the true
heading, and record history entry 0.  Construction consumes the optional
heading draw plus the one draw of the attractor's construction-time
init_bump (whose state reset immediately overwrites). -/
def mkBug (p : BugParams) (d : ℕ → ℝ) : BugS :=
  let heading := if 0 ≤ p.heading0 then p.heading0 else d 0
  let idx0 := (if 0 ≤ p.heading0 then 0 else 1) + 1
  let r := raReset heading
  { x := p.x0, y := p.y0, heading := heading, r := r, m := fun _ => 0, idx := idx0,
    history := [⟨p.x0, p.y0, heading, raHeading r, bump_amplitude r⟩] }

/-- The steering command computed inside Bug::step from the pre-step state. -/
def bugCmd (p : BugParams) (land : Landscape) (s : BugS) : ℝ :=
  p.kappa * Real.sin (p.goal_heading -
    (raHeading s.r + (land.magnetic_direction s.x s.y).direction))

/-- The compass channels Bug::step reads, at the heading relative to the local
field, consuming the per-unit noise draws d(idx), ..., d(idx + n_cry - 1). -/
def bugCompass (p : BugParams) (land : Landscape) (d : ℕ → ℝ) (s : BugS) : Fin 8 → ℝ :=
  compassRead p.n_cry p.contrast p.mean_yield p.sigma_sensor
    (s.heading - (land.magnetic_direction s.x s.y).direction)
    (fun k => d (s.idx + k))

/-- The attractor noise array of Bug::step, consuming the draws right after
the compass ones. -/
def bugRaNoise (p : BugParams) (d : ℕ → ℝ) (s : BugS) : Fin 8 → ℝ :=
  fun i => if 0 < p.ra_noise_sigma
    then p.ra_noise_sigma * d (s.idx + nCompassDraws p + (i : ℕ)) else 0

/-- The attractor state after Bug::step's call to RingAttractor::step. -/
def bugR (p : BugParams) (land : Landscape) (dt : ℝ) (d : ℕ → ℝ) (s : BugS) :
    Fin 8 → ℝ :=
  raStep (bugRA p) dt s.r (some (bugCompass p land d s)) (bugCmd p land s)
    (bugRaNoise p d s)

/-- Bug::step: sense, estimate, steer, integrate, move, record.  Returns the
updated state and the in-bounds flag of the new position.  Stream draws are
consumed in program order: compass per-unit noise (if sigma_sensor > 0), then
attractor per-unit noise (if ra_noise_sigma > 0), then the heading noise, the
x noise and the y noise. -/
def bug_step (p : BugParams) (land : Landscape) (dt : ℝ) (d : ℕ → ℝ) (s : BugS) :
    BugS × Prop :=
  let field := land.magnetic_direction s.x s.y
  let angular_command := bugCmd p land s
  let r' := bugR p land dt d s
  let m' := cpu4_update p.cpu4_leak p.cpu4_gain (raHeading r') p.speed dt s.m
  let idx2 := s.idx + nCompassDraws p + nRaDraws p
  let heading' := wrap2pi (s.heading + angular_command * dt +
    p.sigma_theta * Real.sqrt dt * d idx2)
  let x' := s.x + p.speed * Real.cos heading' * dt + p.sigma_xy * Real.sqrt dt * d (idx2 + 1)
  let y' := s.y + p.speed * Real.sin heading' * dt + p.sigma_xy * Real.sqrt dt * d (idx2 + 2)
  let est := raHeading r' + field.direction
  ({ x := x', y := y', heading := heading', r := r', m := m', idx := idx2 + 3,
     history := s.history ++ [⟨x', y', heading', est, bump_amplitude r'⟩] },
   land.in_bounds x' y')

/-- One Bug::step, keeping only the state. -/
def bugNext (p : BugParams) (land : Landscape) (dt : ℝ) (d : ℕ → ℝ) (s : BugS) : BugS :=
  (bug_step p land dt d s).1

/-- The loop body of Bug::run: n remaining iterations; returns the final
state, the number of steps actually executed, and the returned flag. -/
def bug_runAux (p : BugParams) (land : Landscape) (dt : ℝ) (d : ℕ → ℝ) :
    ℕ → BugS → BugS × ℕ × Prop
  | 0, s => (s, 0, True)
  | n + 1, s =>
      let r := bug_step p land dt d s
      if r.2 then
        let rest := bug_runAux p land dt d n r.1
        (rest.1, rest.2.1 + 1, rest.2.2)
      else (r.1, 1, False)

/-- Bug::run: static_cast of duration / dt to int (truncation toward zero;
a negative quotient yields zero loop iterations) then the step loop, stopping
at the first out-of-bounds step. -/
def bug_run (p : BugParams) (land : Landscape) (duration dt : ℝ) (d : ℕ → ℝ)
    (s : BugS) : BugS × ℕ × Prop :=
  bug_runAux p land dt d (truncR (duration / dt)).toNat s

/-- An operation performed on a Bug over its lifetime. -/
inductive BugOp where
  | stp (dt : ℝ) (land : Landscape)
  | rn (land : Landscape) (duration : ℝ) (dt : ℝ)

/-- Execute one operation, keeping the state. -/
def execOp (p : BugParams) (d : ℕ → ℝ) (s : BugS) : BugOp → BugS
  | .stp dt land => bugNext p land dt d s
  | .rn land duration dt => (bug_run p land duration dt d s).1

/-- Number of steps one operation actually executes. -/
def opSteps (p : BugParams) (d : ℕ → ℝ) (s : BugS) : BugOp → ℕ
  | .stp _ _ => 1
  | .rn land duration dt => (bug_run p land duration dt d s).2.1

/-- Execute a sequence of operations. -/
def execOps (p : BugParams) (d : ℕ → ℝ) : BugS → List BugOp → BugS
  | s, [] => s
  | s, op :: t => execOps p d (execOp p d s op) t

/-- Total number of steps a sequence of operations executes. -/
def totalSteps (p : BugParams) (d : ℕ → ℝ) : BugS → List BugOp → ℕ
  | _, [] => 0
  | s, op :: t => opSteps p d s op + totalSteps p d (execOp p d s op) t

/-! ## Concrete instances used by counterexamples and witnesses -/

/-- A landscape with zero declination and zero inclination and no anomalies. -/
def flatLand : Landscape := ⟨1000, 1000, 50, 0, 0, []⟩

/-- A gradient anomaly of 1 muT per unit toward direction 0 from (0, 0). -/
def cexGrad : Anomaly := Anomaly.gradient ⟨1, 0, 0, 0⟩

/-- A dipole of unit strength buried at unit depth under the origin. -/
def cexDipole : DipoleAnomaly := ⟨0, 0, 1, 1⟩

/-! ## Helper lemmas -/

theorem wrapPi_eq_sub_int_mul (d : ℝ) : ∃ k : ℤ, wrapPi d = d - 2 * π * k := by
  unfold wrapPi fmodR
  by_cases h : d + π - 2 * π * (truncR ((d + π) / (2 * π)) : ℝ) < 0
  · refine ⟨truncR ((d + π) / (2 * π)) - 1, ?_⟩
    simp only [h, if_true]
    push_cast
    ring
  · refine ⟨truncR ((d + π) / (2 * π)), ?_⟩
    simp only [h, if_false]
    ring

theorem cos_wrapPi (d : ℝ) : Real.cos (wrapPi d) = Real.cos d := by
  obtain ⟨k, hk⟩ := wrapPi_eq_sub_int_mul d
  rw [hk, show d - 2 * π * k = d + (-k : ℤ) * (2 * π) by push_cast; ring]
  exact Real.cos_add_int_mul_two_pi d (-k)

theorem foldl_update_sum (f : ℕ → ℝ) (g : ℕ → Fin 8) (l : List ℕ)
    (init : Fin 8 → ℝ) (c : Fin 8) :
    (l.foldl (fun s k => Function.update s (g k) (s (g k) + f k)) init) c
      = init c + ((l.filter (fun k => g k == c)).map f).sum := by
  induction l generalizing init with
  | nil => simp
  | cons a t ih =>
    simp only [List.foldl_cons, ih, List.filter_cons]
    by_cases h : g a = c
    · subst h
      simp only [beq_self_eq_true, if_true, List.map_cons, List.sum_cons,
        Function.update_same]
      ring
    · have hb : (g a == c) = false := by simp [h]
      have hcg : c ≠ g a := fun hc => h hc.symm
      simp only [hb, Bool.false_eq_true, if_false, Function.update_noteq hcg]

theorem sum_countP_eq_length (g : ℕ → Fin 8) (l : List ℕ) :
    (∑ c : Fin 8, l.countP (fun k => g k == c)) = l.length := by
  induction l with
  | nil => simp
  | cons a t ih =>
    simp only [List.countP_cons, List.length_cons]
    rw [Finset.sum_add_distrib, ih]
    congr 1
    simp [beq_iff_eq]

theorem clampR_bounds (v lo hi : ℝ) (h : lo ≤ hi) :
    lo ≤ clampR v lo hi ∧ clampR v lo hi ≤ hi := by
  unfold clampR
  split_ifs with h1 h2
  · exact ⟨le_refl _, h⟩
  · exact ⟨h, le_refl _⟩
  · exact ⟨not_lt.mp h1, not_lt.mp h2⟩

/-! ## C9 -/

/-- C9: for every HeadingEstimator state and every call to step, whatever the
timestep, compass input, angular velocity drive and noise draws, each entry of
the rate vector lies in [0, r_max] after the call (for the interval to exist
the configured r_max must be nonnegative; the construction default is 1). -/
theorem c9_rates_clamped (p : RAParams) (dt : ℝ) (r : Fin 8 → ℝ)
    (compass : Option (Fin 8 → ℝ)) (av : ℝ) (noise : Fin 8 → ℝ)
    (h : 0 ≤ p.r_max) (i : Fin 8) :
    0 ≤ raStep p dt r compass av noise i ∧
      raStep p dt r compass av noise i ≤ p.r_max :=
  clampR_bounds _ 0 p.r_max h

/-- Witness for C9 at a concrete instance: the default parameters, a flat
state, dt = 0.01, no compass, zero drive and noise, entry 0. -/
theorem c9_rates_clamped_witness :
    0 ≤ raStep raDefault 0.01 (fun _ => 0) none 0 (fun _ => 0) 0 ∧
      raStep raDefault 0.01 (fun _ => 0) none 0 (fun _ => 0) 0 ≤ raDefault.r_max :=
  c9_rates_clamped raDefault 0.01 (fun _ => 0) none 0 (fun _ => 0)
    (by norm_num [raDefault]) 0

/-! ## C10 -/

/-- C10: when Bug::step reports out of bounds the state has nevertheless been
fully updated: the attractor and path-integrator are stepped, the heading and
position integrations are applied, the snapshot holding the new (possibly
out-of-bounds) position is appended to the history, and the returned flag is
exactly the bounds test of the post-move position; no rollback occurs. -/
theorem c10_no_rollback (p : BugParams) (land : Landscape) (dt : ℝ) (d : ℕ → ℝ)
    (s : BugS) :
    (bugNext p land dt d s).history
        = s.history ++ [⟨(bugNext p land dt d s).x, (bugNext p land dt d s).y,
            (bugNext p land dt d s).heading,
            raHeading (bugNext p land dt d s).r
              + (land.magnetic_direction s.x s.y).direction,
            bump_amplitude (bugNext p land dt d s).r⟩]
    ∧ ((bug_step p land dt d s).2
        ↔ land.in_bounds (bugNext p land dt d s).x (bugNext p land dt d s).y)
    ∧ (bugNext p land dt d s).r = bugR p land dt d s
    ∧ (bugNext p land dt d s).m
        = cpu4_update p.cpu4_leak p.cpu4_gain (raHeading (bugR p land dt d s))
            p.speed dt s.m
    ∧ (bugNext p land dt d s).heading
        = wrap2pi (s.heading + bugCmd p land s * dt + p.sigma_theta * Real.sqrt dt
            * d (s.idx + nCompassDraws p + nRaDraws p))
    ∧ (bugNext p land dt d s).x
        = s.x + p.speed * Real.cos (bugNext p land dt d s).heading * dt
            + p.sigma_xy * Real.sqrt dt * d (s.idx + nCompassDraws p + nRaDraws p + 1)
    ∧ (bugNext p land dt d s).y
        = s.y + p.speed * Real.sin (bugNext p land dt d s).heading * dt
            + p.sigma_xy * Real.sqrt dt * d (s.idx + nCompassDraws p + nRaDraws p + 2) :=
  ⟨rfl, Iff.rfl, rfl, rfl, rfl, rfl, rfl⟩

/-! ## C1 -/

/-- C1 (counterexample): the claim's far-field recovery fails for anomaly
types without compact support.  A gradient anomaly referenced at the origin,
queried 100 units away, changes the field intensity from 50 to 150, so the
query does not recover the anomaly-free background. -/
theorem c1_counterexample :
    (Landscape.magnetic_direction { flatLand with anomalies := [cexGrad] } 100 0).intensity
      ≠ (flatLand.magnetic_direction 100 0).intensity := by
  unfold Landscape.magnetic_direction Landscape.B_horizontal Landscape.B_vertical
    flatLand cexGrad perturbation
  simp only [List.foldl_cons, List.foldl_nil, Real.cos_zero, Real.sin_zero]
  norm_num

/-- C1 (amended): only the Gaussian anomaly has compact support (it is forced
to zero from 3 radii outward), and for it the claim holds exactly: adding a
Gaussian anomaly to any landscape and querying at a point at least 3 radii
from its centre returns the same field sample as the landscape without it.
The dipole decays but never vanishes at finite range, and the fault and
gradient perturbations do not decay at all. -/
theorem c1_gaussian_far_field (L : Landscape) (a : GaussianAnomaly) (x y : ℝ)
    (h : 3 * a.radius ≤
      Real.sqrt ((x - a.px) * (x - a.px) + (y - a.py) * (y - a.py))) :
    Landscape.magnetic_direction
        { L with anomalies := L.anomalies ++ [Anomaly.gaussian a] } x y
      = L.magnetic_direction x y := by
  have hp : perturbation x y (Anomaly.gaussian a) = (0, 0, 0) := by
    simp only [perturbation]
    rw [if_pos h]
  unfold Landscape.magnetic_direction
  simp only [List.foldl_append, List.foldl_cons, List.foldl_nil, hp, add_zero,
    Landscape.B_horizontal, Landscape.B_vertical]

/-- Witness for C1's amended theorem at a concrete instance: a unit-strength,
unit-radius Gaussian anomaly at the origin, queried 10 units away. -/
theorem c1_gaussian_far_field_witness :
    Landscape.magnetic_direction
        { flatLand with anomalies := flatLand.anomalies ++ [Anomaly.gaussian ⟨0, 0, 1, 1⟩] }
        10 0
      = flatLand.magnetic_direction 10 0 :=
  c1_gaussian_far_field flatLand ⟨0, 0, 1, 1⟩ 10 0 (by
    have e : ((10 : ℝ) - 0) * (10 - 0) + (0 - 0) * (0 - 0) = 10 ^ 2 := by norm_num
    rw [e, Real.sqrt_sq (by norm_num : (0 : ℝ) ≤ 10)]
    norm_num)

/-! ## C7 -/

/-- C7 (counterexample): the dipole perturbation is not a zero vector at its
degenerate radius.  At the centre point above a unit-strength dipole buried at
unit depth the horizontal components vanish but the vertical term is the
strictly positive alpha * 2 * depth^2 / R^5, so the computation does not
return a zero vector there. -/
theorem c7_counterexample : perturbation 0 0 (Anomaly.dipole cexDipole) ≠ (0, 0, 0) := by
  intro hEq
  have h3 : (perturbation 0 0 (Anomaly.dipole cexDipole)).2.2 = 0 := by rw [hEq]
  have e : (perturbation 0 0 (Anomaly.dipole cexDipole)).2.2
      = (5 : ℝ) ^ (2.5 : ℝ) / 48 * 2 := by
    simp only [perturbation, cexDipole]
    norm_num [Real.one_rpow]
  rw [e] at h3
  have hpos : 0 < (5 : ℝ) ^ (2.5 : ℝ) := Real.rpow_pos_of_pos (by norm_num) _
  nlinarith

/-- C7 (amended): the guarded divisions hold as claimed for the compass read
(a channel with zero assigned units reads 0) and for the Gaussian perturbation
(zero vector below the 1e-6 degenerate radius); the dipole perturbation has no
guard and needs none for a positive burial depth, because its denominator
(rho^2 + depth^2)^2.5 is then strictly positive, but it does not return a zero
vector at its degenerate radius (see the counterexample). -/
theorem c7_division_guards :
    (∀ (n : ℕ) (ct my sg h : ℝ) (noise : ℕ → ℝ) (c : Fin 8),
      channel_counts n c = 0 → compassRead n ct my sg h noise c = 0)
    ∧ (∀ (x y : ℝ) (a : GaussianAnomaly),
        Real.sqrt ((x - a.px) * (x - a.px) + (y - a.py) * (y - a.py)) < 1e-6 →
        perturbation x y (Anomaly.gaussian a) = (0, 0, 0))
    ∧ (∀ (x y : ℝ) (a : DipoleAnomaly), 0 < a.depth →
        0 < ((x - a.px) * (x - a.px) + (y - a.py) * (y - a.py) + a.depth * a.depth)
          ^ (2.5 : ℝ)) := by
  refine ⟨?_, ?_, ?_⟩
  · intro n ct my sg h noise c hc
    unfold compassRead
    rw [if_neg]
    simp [hc]
  · intro x y a hr
    simp only [perturbation]
    by_cases hfar : 3 * a.radius ≤
        Real.sqrt ((x - a.px) * (x - a.px) + (y - a.py) * (y - a.py))
    · rw [if_pos hfar]
    · rw [if_neg hfar, if_pos hr]
  · intro x y a hd
    apply Real.rpow_pos_of_pos
    nlinarith [mul_self_nonneg (x - a.px), mul_self_nonneg (y - a.py)]

/-! ## C8 -/

/-- C8: for every heading, a noiseless CompassSensor::read returns in each
nonempty channel exactly the arithmetic mean of the singlet yields of the
units assigned to that channel, and the channel membership counts (each unit
being assigned to exactly one channel) sum to n_cry. -/
theorem c8_noiseless_read_is_population_mean (n : ℕ)
    (contrast mean_yield heading : ℝ) (noise : ℕ → ℝ) :
    (∀ c : Fin 8, 0 < channel_counts n c →
      compassRead n contrast mean_yield 0 heading noise c
        = (((List.range n).filter (fun k => assignChannel n k == c)).map
            (fun k => singlet_yield (heading - cryPhi n k) contrast mean_yield)).sum
          / channel_counts n c)
    ∧ (∑ c : Fin 8, channel_counts n c) = n := by
  constructor
  · intro c hc
    unfold compassRead
    rw [if_pos hc]
    congr 1
    have e1 : compassSums n contrast mean_yield 0 heading noise c
        = (List.range n).foldl
            (fun (s : Fin 8 → ℝ) k => Function.update s (assignChannel n k)
              (s (assignChannel n k) +
                (fun k => if (0 : ℝ) < 0
                  then singlet_yield (heading - cryPhi n k) contrast mean_yield
                    + 0 * noise k
                  else singlet_yield (heading - cryPhi n k) contrast mean_yield) k))
            (fun _ => (0 : ℝ)) c := rfl
    rw [e1, foldl_update_sum]
    simp
  · unfold channel_counts
    rw [sum_countP_eq_length]
    exact List.length_range n

/-! ## Run-loop lemmas -/

theorem bugNext_history_shape (p : BugParams) (land : Landscape) (dt : ℝ)
    (d : ℕ → ℝ) (s : BugS) :
    ∃ e : BugState, (bugNext p land dt d s).history = s.history ++ [e] :=
  ⟨_, rfl⟩

theorem bug_runAux_all_ok (p : BugParams) (land : Landscape) (dt : ℝ) (d : ℕ → ℝ)
    (n : ℕ) (s : BugS)
    (h : ∀ k, k < n → (bug_step p land dt d ((bugNext p land dt d)^[k] s)).2) :
    bug_runAux p land dt d n s = ((bugNext p land dt d)^[n] s, n, True) := by
  induction n generalizing s with
  | zero => simp [bug_runAux]
  | succ m ih =>
    have h0 : (bug_step p land dt d s).2 := by
      have := h 0 (Nat.succ_pos m)
      simpa using this
    have hrec := ih (bugNext p land dt d s) (fun k hk => by
      have := h (k + 1) (Nat.succ_lt_succ hk)
      rwa [Function.iterate_succ_apply] at this)
    simp only [bug_runAux]
    rw [if_pos h0]
    have ebn : (bug_step p land dt d s).1 = bugNext p land dt d s := rfl
    rw [ebn, hrec, ← Function.iterate_succ_apply]

theorem bug_runAux_first_fail (p : BugParams) (land : Landscape) (dt : ℝ)
    (d : ℕ → ℝ) (j : ℕ) :
    ∀ (n : ℕ) (s : BugS), j < n →
    (∀ k, k < j → (bug_step p land dt d ((bugNext p land dt d)^[k] s)).2) →
    ¬ (bug_step p land dt d ((bugNext p land dt d)^[j] s)).2 →
    bug_runAux p land dt d n s = ((bugNext p land dt d)^[j + 1] s, j + 1, False) := by
  induction j with
  | zero =>
    intro n s hn hok hfail
    obtain ⟨m, rfl⟩ : ∃ m, n = m + 1 := ⟨n - 1, by omega⟩
    simp only [bug_runAux]
    rw [if_neg (by simpa using hfail)]
    rfl
  | succ j ih =>
    intro n s hn hok hfail
    obtain ⟨m, rfl⟩ : ∃ m, n = m + 1 := ⟨n - 1, by omega⟩
    have h0 : (bug_step p land dt d s).2 := by
      simpa using hok 0 (Nat.succ_pos j)
    simp only [bug_runAux]
    rw [if_pos h0]
    have ebn : (bug_step p land dt d s).1 = bugNext p land dt d s := rfl
    rw [ebn, ih m (bugNext p land dt d s) (by omega)
      (fun k hk => by
        have := hok (k + 1) (by omega)
        rwa [Function.iterate_succ_apply] at this)
      (by rw [← Function.iterate_succ_apply]; exact hfail),
      ← Function.iterate_succ_apply]

theorem bug_runAux_history_shape (p : BugParams) (land : Landscape) (dt : ℝ)
    (d : ℕ → ℝ) :
    ∀ (n : ℕ) (s : BugS), ∃ t : List BugState,
      (bug_runAux p land dt d n s).1.history = s.history ++ t
      ∧ t.length = (bug_runAux p land dt d n s).2.1 := by
  intro n
  induction n with
  | zero =>
    intro s
    refine ⟨[], ?_, ?_⟩ <;> simp [bug_runAux]
  | succ m ih =>
    intro s
    simp only [bug_runAux]
    by_cases hok : (bug_step p land dt d s).2
    · rw [if_pos hok]
      obtain ⟨t, ht, hlen⟩ := ih ((bug_step p land dt d s).1)
      obtain ⟨e, he⟩ := bugNext_history_shape p land dt d s
      have he' : (bug_step p land dt d s).1.history = s.history ++ [e] := he
      refine ⟨e :: t, ?_, ?_⟩
      · rw [ht, he']
        simp
      · simp [hlen]
    · rw [if_neg hok]
      exact ⟨_, rfl, rfl⟩

theorem execOp_history_shape (p : BugParams) (d : ℕ → ℝ) (s : BugS) (op : BugOp) :
    ∃ t : List BugState,
      (execOp p d s op).history = s.history ++ t ∧ t.length = opSteps p d s op := by
  cases op with
  | stp dt land =>
    obtain ⟨e, he⟩ := bugNext_history_shape p land dt d s
    exact ⟨[e], he, rfl⟩
  | rn land duration dt =>
    exact bug_runAux_history_shape p land dt d _ s

theorem execOps_append (p : BugParams) (d : ℕ → ℝ) :
    ∀ (l1 l2 : List BugOp) (s : BugS),
      execOps p d s (l1 ++ l2) = execOps p d (execOps p d s l1) l2 := by
  intro l1
  induction l1 with
  | nil => intro l2 s; rfl
  | cons op t ih =>
    intro l2 s
    simp only [List.cons_append, execOps]
    exact ih l2 _

theorem execOps_history_shape (p : BugParams) (d : ℕ → ℝ) :
    ∀ (ops : List BugOp) (s : BugS), ∃ t : List BugState,
      (execOps p d s ops).history = s.history ++ t
      ∧ t.length = totalSteps p d s ops := by
  intro ops
  induction ops with
  | nil =>
    intro s
    refine ⟨[], ?_, ?_⟩ <;> simp [execOps, totalSteps]
  | cons op t ih =>
    intro s
    obtain ⟨t1, h1, l1⟩ := execOp_history_shape p d s op
    obtain ⟨t2, h2, l2⟩ := ih (execOp p d s op)
    refine ⟨t1 ++ t2, ?_, ?_⟩
    · simp only [execOps]
      rw [h2, h1, List.append_assoc]
    · simp only [totalSteps, List.length_append, l1, l2]

/-! ## C4 -/

/-- C4: for a positive dt and nonnegative duration, Bug::run performs exactly
floor(duration/dt) steps and returns true when every step stays in bounds
(the final state being exactly that iterate of step); and when step j is the
first to report out of bounds, run returns false having performed exactly
j + 1 steps, its final state being the iterate after those j + 1 steps only,
so no further steps happen. -/
theorem c4_run_step_count (p : BugParams) (land : Landscape) (duration dt : ℝ)
    (d : ℕ → ℝ) (s : BugS) (h1 : 0 < dt) (h2 : 0 ≤ duration) :
    ((truncR (duration / dt)).toNat : ℤ) = ⌊duration / dt⌋
    ∧ ((∀ k, k < (truncR (duration / dt)).toNat →
          (bug_step p land dt d ((bugNext p land dt d)^[k] s)).2) →
        bug_run p land duration dt d s
          = ((bugNext p land dt d)^[(truncR (duration / dt)).toNat] s,
              (truncR (duration / dt)).toNat, True))
    ∧ (∀ j, j < (truncR (duration / dt)).toNat →
        (∀ k, k < j → (bug_step p land dt d ((bugNext p land dt d)^[k] s)).2) →
        ¬ (bug_step p land dt d ((bugNext p land dt d)^[j] s)).2 →
        bug_run p land duration dt d s
          = ((bugNext p land dt d)^[j + 1] s, j + 1, False)) := by
  have hq : 0 ≤ duration / dt := div_nonneg h2 h1.le
  refine ⟨?_, ?_, ?_⟩
  · unfold truncR
    rw [if_pos hq]
    exact Int.toNat_of_nonneg (Int.floor_nonneg.mpr hq)
  · intro hall
    unfold bug_run
    exact bug_runAux_all_ok p land dt d _ s hall
  · intro j hj hok hfail
    unfold bug_run
    exact bug_runAux_first_fail p land dt d j _ s hj hok hfail

/-- Witness for C4 at a concrete input: duration 0, dt 1, so the truncated
step count is 0 and its cast equals the floor. -/
theorem c4_run_step_count_witness :
    ((truncR ((0 : ℝ) / 1)).toNat : ℤ) = ⌊(0 : ℝ) / 1⌋ :=
  (c4_run_step_count bugDefaults flatLand 0 1 (fun _ => 0)
    (mkBug bugDefaults (fun _ => 0)) one_pos (le_refl 0)).1

/-! ## C5 -/

/-- C5: over any lifetime of step and run operations, the Bug's history is
append-only: construction records exactly the one initial snapshot, any
further operations only ever append (the history after a prefix of the
lifetime is a prefix of the history after the whole lifetime), entry 0 stays
the initial snapshot, and the history length is always 1 plus the total
number of steps actually taken. -/
theorem c5_history_append_only (p : BugParams) (d : ℕ → ℝ) (ops : List BugOp) :
    (mkBug p d).history
        = [⟨p.x0, p.y0, (if 0 ≤ p.heading0 then p.heading0 else d 0),
            raHeading (raReset (if 0 ≤ p.heading0 then p.heading0 else d 0)),
            bump_amplitude (raReset (if 0 ≤ p.heading0 then p.heading0 else d 0))⟩]
    ∧ (execOps p d (mkBug p d) ops).history.length
        = 1 + totalSteps p d (mkBug p d) ops
    ∧ (execOps p d (mkBug p d) ops).history.head? = (mkBug p d).history.head?
    ∧ ∀ more : List BugOp, ∃ t : List BugState,
        (execOps p d (mkBug p d) (ops ++ more)).history
          = (execOps p d (mkBug p d) ops).history ++ t := by
  obtain ⟨t, ht, hlen⟩ := execOps_history_shape p d ops (mkBug p d)
  refine ⟨rfl, ?_, ?_, ?_⟩
  · rw [ht, List.length_append, hlen]
    rfl
  · rw [ht]
    rfl
  · intro more
    rw [execOps_append]
    obtain ⟨t2, h2, _⟩ := execOps_history_shape p d more (execOps p d (mkBug p d) ops)
    exact ⟨t2, h2⟩

/-! ## Stream-locality lemmas -/

theorem compassSums_congr (n : ℕ) (ct my sg h : ℝ) (noise noise' : ℕ → ℝ)
    (hn : ∀ k, k < n → noise k = noise' k) :
    compassSums n ct my sg h noise = compassSums n ct my sg h noise' := by
  unfold compassSums
  refine List.foldl_ext _ _ _ (fun acc k hk => ?_)
  rw [hn k (List.mem_range.mp hk)]

theorem compassRead_congr (n : ℕ) (ct my sg h : ℝ) (noise noise' : ℕ → ℝ)
    (hn : ∀ k, k < n → noise k = noise' k) :
    compassRead n ct my sg h noise = compassRead n ct my sg h noise' := by
  funext c
  unfold compassRead
  rw [compassSums_congr n ct my sg h noise noise' hn]

theorem compassSums_nonoise (n : ℕ) (ct my sg h : ℝ) (noise noise' : ℕ → ℝ)
    (hsg : ¬ 0 < sg) :
    compassSums n ct my sg h noise = compassSums n ct my sg h noise' := by
  unfold compassSums
  simp only [if_neg hsg]

theorem bug_step_locality (p : BugParams) (land : Landscape) (dt : ℝ)
    (d d' : ℕ → ℝ) (s : BugS)
    (hagree : ∀ k, k < nCompassDraws p + nRaDraws p + 3 →
      d (s.idx + k) = d' (s.idx + k)) :
    bug_step p land dt d s = bug_step p land dt d' s := by
  have hc : bugCompass p land d s = bugCompass p land d' s := by
    unfold bugCompass
    by_cases hs : 0 < p.sigma_sensor
    · refine compassRead_congr _ _ _ _ _ _ _ (fun k hk => hagree k ?_)
      unfold nCompassDraws
      rw [if_pos hs]
      omega
    · funext c
      unfold compassRead
      rw [compassSums_nonoise p.n_cry p.contrast p.mean_yield p.sigma_sensor _
        (fun k => d (s.idx + k)) (fun k => d' (s.idx + k)) hs]
  have hn : bugRaNoise p d s = bugRaNoise p d' s := by
    funext i
    unfold bugRaNoise
    by_cases hr : 0 < p.ra_noise_sigma
    · rw [if_pos hr, if_pos hr]
      have hb := hagree (nCompassDraws p + (i : ℕ)) (by
        have h8 : (i : ℕ) < 8 := i.isLt
        unfold nRaDraws
        rw [if_pos hr]
        omega)
      rw [← Nat.add_assoc] at hb
      rw [hb]
    · rw [if_neg hr, if_neg hr]
  have hR : bugR p land dt d s = bugR p land dt d' s := by
    unfold bugR
    rw [hc, hn]
  have h1 : d (s.idx + nCompassDraws p + nRaDraws p)
      = d' (s.idx + nCompassDraws p + nRaDraws p) := by
    rw [Nat.add_assoc]
    exact hagree (nCompassDraws p + nRaDraws p) (by omega)
  have h2 : d (s.idx + nCompassDraws p + nRaDraws p + 1)
      = d' (s.idx + nCompassDraws p + nRaDraws p + 1) := by
    rw [Nat.add_assoc, Nat.add_assoc]
    exact hagree (nCompassDraws p + (nRaDraws p + 1)) (by omega)
  have h3 : d (s.idx + nCompassDraws p + nRaDraws p + 2)
      = d' (s.idx + nCompassDraws p + nRaDraws p + 2) := by
    rw [Nat.add_assoc, Nat.add_assoc]
    exact hagree (nCompassDraws p + (nRaDraws p + 2)) (by omega)
  unfold bug_step
  dsimp only
  rw [hR, h1, h2, h3]

theorem bugNext_idx (p : BugParams) (land : Landscape) (dt : ℝ) (d : ℕ → ℝ)
    (s : BugS) :
    (bugNext p land dt d s).idx = s.idx + nCompassDraws p + nRaDraws p + 3 := rfl

theorem bug_iter_locality (p : BugParams) (land : Landscape) (dt : ℝ)
    (d d' : ℕ → ℝ) :
    ∀ (n : ℕ) (s : BugS),
      (∀ j, s.idx ≤ j → j < s.idx + n * (nCompassDraws p + nRaDraws p + 3) →
        d j = d' j) →
      (bugNext p land dt d)^[n] s = (bugNext p land dt d')^[n] s := by
  intro n
  induction n with
  | zero => intro s _; rfl
  | succ m ih =>
    intro s h
    have hc1 : nCompassDraws p + nRaDraws p + 3
        ≤ (m + 1) * (nCompassDraws p + nRaDraws p + 3) :=
      Nat.le_mul_of_pos_left _ (Nat.succ_pos m)
    have hstep : bug_step p land dt d s = bug_step p land dt d' s :=
      bug_step_locality p land dt d d' s (fun k hk =>
        h (s.idx + k) (Nat.le_add_right _ _) (by omega))
    have hb : bugNext p land dt d s = bugNext p land dt d' s :=
      congrArg Prod.fst hstep
    rw [Function.iterate_succ_apply, Function.iterate_succ_apply, hb]
    refine ih (bugNext p land dt d' s) (fun j hj1 hj2 => ?_)
    rw [bugNext_idx] at hj1 hj2
    refine h j (by omega) ?_
    have : (m + 1) * (nCompassDraws p + nRaDraws p + 3)
        = m * (nCompassDraws p + nRaDraws p + 3) + (nCompassDraws p + nRaDraws p + 3) :=
      Nat.succ_mul _ _
    omega

/-! ## C2 -/

/-- C2: reproducibility and draw order.  With both noise sources enabled,
one Bug::step consumes exactly n_cry + 8 + 3 pseudorandom draws; the step is
a function of the stream restricted to exactly that window (two streams that
agree there produce identical results, which is determinism of a step);
within the step the draw positions are fixed: the compass consumes draws
idx ... idx + n_cry - 1 per unit in order, the estimator consumes the next 8
per unit in order, then the heading motion noise uses draw idx + n_cry + 8,
the position-x noise the next draw and the position-y noise the one after;
and two whole runs from construction driven by streams that agree on the
consumed range are bit-identical. -/
theorem c2_determinism_draw_order (p : BugParams) (land : Landscape) (dt : ℝ)
    (d d' : ℕ → ℝ) (s : BugS) (n : ℕ)
    (hs : 0 < p.sigma_sensor) (hr : 0 < p.ra_noise_sigma) :
    (bugNext p land dt d s).idx = s.idx + p.n_cry + 8 + 3
    ∧ ((∀ k, k < p.n_cry + 8 + 3 → d (s.idx + k) = d' (s.idx + k)) →
        bug_step p land dt d s = bug_step p land dt d' s)
    ∧ (bugCompass p land d s
        = compassRead p.n_cry p.contrast p.mean_yield p.sigma_sensor
            (s.heading - (land.magnetic_direction s.x s.y).direction)
            (fun k => d (s.idx + k)))
    ∧ (bugRaNoise p d s
        = fun (i : Fin 8) => p.ra_noise_sigma * d (s.idx + p.n_cry + (i : ℕ)))
    ∧ (bugNext p land dt d s).heading
        = wrap2pi (s.heading + bugCmd p land s * dt
            + p.sigma_theta * Real.sqrt dt * d (s.idx + p.n_cry + 8))
    ∧ (bugNext p land dt d s).x
        = s.x + p.speed * Real.cos ((bugNext p land dt d s).heading) * dt
            + p.sigma_xy * Real.sqrt dt * d (s.idx + p.n_cry + 8 + 1)
    ∧ (bugNext p land dt d s).y
        = s.y + p.speed * Real.sin ((bugNext p land dt d s).heading) * dt
            + p.sigma_xy * Real.sqrt dt * d (s.idx + p.n_cry + 8 + 2)
    ∧ ((∀ j, j < (if 0 ≤ p.heading0 then 1 else 2) + n * (p.n_cry + 8 + 3) →
          d j = d' j) →
        (bugNext p land dt d)^[n] (mkBug p d)
          = (bugNext p land dt d')^[n] (mkBug p d')) := by
  have ec : nCompassDraws p = p.n_cry := if_pos hs
  have er : nRaDraws p = 8 := if_pos hr
  refine ⟨?_, ?_, rfl, ?_, ?_, ?_, ?_, ?_⟩
  · rw [bugNext_idx, ec, er]
  · intro hagree
    exact bug_step_locality p land dt d d' s (by rw [ec, er]; exact hagree)
  · funext i
    unfold bugRaNoise
    rw [if_pos hr, ec]
  · show wrap2pi (s.heading + bugCmd p land s * dt
        + p.sigma_theta * Real.sqrt dt * d (s.idx + nCompassDraws p + nRaDraws p)) = _
    rw [ec, er]
  · show s.x + p.speed * Real.cos ((bugNext p land dt d s).heading) * dt
        + p.sigma_xy * Real.sqrt dt * d (s.idx + nCompassDraws p + nRaDraws p + 1) = _
    rw [ec, er]
  · show s.y + p.speed * Real.sin ((bugNext p land dt d s).heading) * dt
        + p.sigma_xy * Real.sqrt dt * d (s.idx + nCompassDraws p + nRaDraws p + 2) = _
    rw [ec, er]
  · intro hagree
    have hmk : mkBug p d = mkBug p d' := by
      unfold mkBug
      by_cases h0 : 0 ≤ p.heading0
      · simp only [if_pos h0]
      · have hd0 : d 0 = d' 0 := hagree 0 (by rw [if_neg h0]; omega)
        simp only [if_neg h0, hd0]
    rw [hmk]
    refine bug_iter_locality p land dt d d' n (mkBug p d') (fun j hj1 hj2 => ?_)
    refine hagree j ?_
    have hidx : (mkBug p d').idx = (if 0 ≤ p.heading0 then 0 else 1) + 1 := rfl
    rw [hidx, ec, er] at hj2
    by_cases h0 : 0 ≤ p.heading0
    · rw [if_pos h0] at hj2
      rw [if_pos h0]
      omega
    · rw [if_neg h0] at hj2
      rw [if_neg h0]
      omega

/-- Witness for C2 at a concrete instance: the default parameters (both noise
sigmas positive), the flat landscape, dt = 0.01, the zero stream. -/
theorem c2_determinism_draw_order_witness :
    (bugNext bugDefaults flatLand 0.01 (fun _ => 0)
        (mkBug bugDefaults (fun _ => 0))).idx
      = (mkBug bugDefaults (fun _ => 0)).idx + bugDefaults.n_cry + 8 + 3 :=
  (c2_determinism_draw_order bugDefaults flatLand 0.01 (fun _ => 0) (fun _ => 0)
    (mkBug bugDefaults (fun _ => 0)) 0 (by norm_num [bugDefaults])
    (by norm_num [bugDefaults])).1

/-! ## Angle value lemmas -/

theorem cos_three_pi_div_four : Real.cos (3 * π / 4) = -(Real.sqrt 2 / 2) := by
  have e : (3 : ℝ) * π / 4 = π - π / 4 := by ring
  rw [e, Real.cos_pi_sub, Real.cos_pi_div_four]

theorem sin_three_pi_div_four : Real.sin (3 * π / 4) = Real.sqrt 2 / 2 := by
  have e : (3 : ℝ) * π / 4 = π - π / 4 := by ring
  rw [e, Real.sin_pi_sub, Real.sin_pi_div_four]

theorem cos_five_pi_div_four : Real.cos (5 * π / 4) = -(Real.sqrt 2 / 2) := by
  have e : (5 : ℝ) * π / 4 = π + π / 4 := by ring
  rw [e, Real.cos_add, Real.cos_pi, Real.sin_pi, Real.cos_pi_div_four]
  ring

theorem sin_five_pi_div_four : Real.sin (5 * π / 4) = -(Real.sqrt 2 / 2) := by
  have e : (5 : ℝ) * π / 4 = π + π / 4 := by ring
  rw [e, Real.sin_add, Real.cos_pi, Real.sin_pi, Real.sin_pi_div_four]
  ring

theorem cos_three_pi_div_two : Real.cos (3 * π / 2) = 0 := by
  have e : (3 : ℝ) * π / 2 = π + π / 2 := by ring
  rw [e, Real.cos_add, Real.cos_pi, Real.sin_pi, Real.cos_pi_div_two]
  ring

theorem sin_three_pi_div_two : Real.sin (3 * π / 2) = -1 := by
  have e : (3 : ℝ) * π / 2 = π + π / 2 := by ring
  rw [e, Real.sin_add, Real.cos_pi, Real.sin_pi, Real.sin_pi_div_two]
  ring

theorem cos_seven_pi_div_four : Real.cos (7 * π / 4) = Real.sqrt 2 / 2 := by
  have e : (7 : ℝ) * π / 4 = 2 * π - π / 4 := by ring
  rw [e, Real.cos_sub, Real.cos_two_pi, Real.sin_two_pi, Real.cos_pi_div_four]
  ring

theorem sin_seven_pi_div_four : Real.sin (7 * π / 4) = -(Real.sqrt 2 / 2) := by
  have e : (7 : ℝ) * π / 4 = 2 * π - π / 4 := by ring
  rw [e, Real.sin_sub, Real.cos_two_pi, Real.sin_two_pi, Real.sin_pi_div_four]
  ring

/-! ## C3: CPU4 north-walk decode -/

theorem cpu4Phi_0 : cpu4Phi 0 = 0 := by unfold cpu4Phi; norm_num

theorem cpu4Phi_1 : cpu4Phi 1 = π / 4 := by
  unfold cpu4Phi
  rw [show ((1 : Fin 8) : ℕ) = 1 from rfl]
  push_cast
  ring

theorem cpu4Phi_2 : cpu4Phi 2 = π / 2 := by
  unfold cpu4Phi
  rw [show ((2 : Fin 8) : ℕ) = 2 from rfl]
  push_cast
  ring

theorem cpu4Phi_3 : cpu4Phi 3 = 3 * π / 4 := by
  unfold cpu4Phi
  rw [show ((3 : Fin 8) : ℕ) = 3 from rfl]
  push_cast
  ring

theorem cpu4Phi_4 : cpu4Phi 4 = π := by
  unfold cpu4Phi
  rw [show ((4 : Fin 8) : ℕ) = 4 from rfl]
  push_cast
  ring

theorem cpu4Phi_5 : cpu4Phi 5 = 5 * π / 4 := by
  unfold cpu4Phi
  rw [show ((5 : Fin 8) : ℕ) = 5 from rfl]
  push_cast
  ring

theorem cpu4Phi_6 : cpu4Phi 6 = 3 * π / 2 := by
  unfold cpu4Phi
  rw [show ((6 : Fin 8) : ℕ) = 6 from rfl]
  push_cast
  ring

theorem cpu4Phi_7 : cpu4Phi 7 = 7 * π / 4 := by
  unfold cpu4Phi
  rw [show ((7 : Fin 8) : ℕ) = 7 from rfl]
  push_cast
  ring

theorem cpu4_north_memory (dt : ℝ) (k : ℕ) (i : Fin 8) :
    ((fun m => cpu4_update 0 1 0 1 dt m)^[k] (fun _ => 0)) i
      = k * (max (Real.cos (0 - cpu4Phi i)) 0 * dt) := by
  induction k with
  | zero => simp
  | succ j ih =>
    rw [Function.iterate_succ_apply']
    show (if (0 : ℝ) < 0
        then ((fun m => cpu4_update 0 1 0 1 dt m)^[j] (fun _ => 0)) i * (1 - 0 * dt)
        else ((fun m => cpu4_update 0 1 0 1 dt m)^[j] (fun _ => 0)) i)
      + 1 * 1 * max (Real.cos (0 - cpu4Phi i)) 0 * dt = _
    rw [if_neg (lt_irrefl (0 : ℝ)), ih]
    push_cast
    ring

theorem cpu4_north_home (k : ℕ) (dt : ℝ) (hk : 0 < k) (hdt : 0 < dt) :
    (home_vector ((fun m => cpu4_update 0 1 0 1 dt m)^[k] (fun _ => 0))).distance
        = 2 * (k * dt)
    ∧ (home_vector ((fun m => cpu4_update 0 1 0 1 dt m)^[k] (fun _ => 0))).direction
        = π := by
  have h2 : Real.sqrt 2 * Real.sqrt 2 = 2 := Real.mul_self_sqrt (by norm_num)
  have hs2 : 0 ≤ Real.sqrt 2 / 2 := by positivity
  have hd : displacement ((fun m => cpu4_update 0 1 0 1 dt m)^[k] (fun _ => 0))
      = (2 * (k * dt), 0) := by
    unfold displacement
    have e1 : (∑ i, ((fun m => cpu4_update 0 1 0 1 dt m)^[k] (fun _ => 0)) i
        * Real.cos (cpu4Phi i)) = 2 * (k * dt) := by
      rw [Fin.sum_univ_eight]
      rw [cpu4_north_memory dt k 0, cpu4_north_memory dt k 1, cpu4_north_memory dt k 2,
        cpu4_north_memory dt k 3, cpu4_north_memory dt k 4, cpu4_north_memory dt k 5,
        cpu4_north_memory dt k 6, cpu4_north_memory dt k 7]
      rw [cpu4Phi_0, cpu4Phi_1, cpu4Phi_2, cpu4Phi_3, cpu4Phi_4, cpu4Phi_5,
        cpu4Phi_6, cpu4Phi_7]
      simp only [zero_sub, Real.cos_neg]
      rw [Real.cos_zero, Real.cos_pi_div_four, Real.cos_pi_div_two,
        cos_three_pi_div_four, Real.cos_pi, cos_five_pi_div_four,
        cos_three_pi_div_two, cos_seven_pi_div_four]
      rw [max_eq_left (le_refl (0 : ℝ) |>.trans zero_le_one), max_eq_left hs2,
        max_self (0 : ℝ), max_eq_right (by linarith : -(Real.sqrt 2 / 2) ≤ (0 : ℝ)),
        max_eq_right (by norm_num : (-1 : ℝ) ≤ 0)]
      linear_combination ((k : ℝ) * dt / 2) * h2
    have e2 : (∑ i, ((fun m => cpu4_update 0 1 0 1 dt m)^[k] (fun _ => 0)) i
        * Real.sin (cpu4Phi i)) = 0 := by
      rw [Fin.sum_univ_eight]
      rw [cpu4_north_memory dt k 0, cpu4_north_memory dt k 1, cpu4_north_memory dt k 2,
        cpu4_north_memory dt k 3, cpu4_north_memory dt k 4, cpu4_north_memory dt k 5,
        cpu4_north_memory dt k 6, cpu4_north_memory dt k 7]
      rw [cpu4Phi_0, cpu4Phi_1, cpu4Phi_2, cpu4Phi_3, cpu4Phi_4, cpu4Phi_5,
        cpu4Phi_6, cpu4Phi_7]
      simp only [zero_sub, Real.cos_neg]
      rw [Real.cos_zero, Real.cos_pi_div_four, Real.cos_pi_div_two,
        cos_three_pi_div_four, Real.cos_pi, cos_five_pi_div_four,
        cos_three_pi_div_two, cos_seven_pi_div_four]
      rw [Real.sin_zero, Real.sin_pi_div_four, Real.sin_pi_div_two,
        sin_three_pi_div_four, Real.sin_pi, sin_five_pi_div_four,
        sin_three_pi_div_two, sin_seven_pi_div_four]
      rw [max_eq_left (le_refl (0 : ℝ) |>.trans zero_le_one), max_eq_left hs2,
        max_self (0 : ℝ), max_eq_right (by linarith : -(Real.sqrt 2 / 2) ≤ (0 : ℝ)),
        max_eq_right (by norm_num : (-1 : ℝ) ≤ 0)]
      ring
    rw [Prod.ext_iff]
    exact ⟨e1, e2⟩
  have hkpos : (0 : ℝ) < (k : ℝ) * dt := by
    have : (0 : ℝ) < (k : ℝ) := by exact_mod_cast hk
    positivity
  constructor
  · show Real.sqrt
        ((displacement _).1 * (displacement _).1 + (displacement _).2 * (displacement _).2)
      = 2 * (k * dt)
    rw [hd]
    have e : 2 * ((k : ℝ) * dt) * (2 * ((k : ℝ) * dt)) + (0 : ℝ) * 0
        = (2 * ((k : ℝ) * dt)) ^ 2 := by ring
    rw [e, Real.sqrt_sq (by linarith)]
  · show atan2 (-(displacement _).2) (-(displacement _).1) = π
    rw [hd]
    unfold atan2
    have e : (⟨-(2 * ((k : ℝ) * dt)), -(0 : ℝ)⟩ : ℂ)
        = ((-(2 * ((k : ℝ) * dt)) : ℝ) : ℂ) := by
      refine Complex.ext ?_ ?_
      · rw [Complex.ofReal_re]
      · rw [Complex.ofReal_im]
        exact neg_zero
    rw [e]
    exact Complex.arg_ofReal_of_neg (by linarith)

/-! ## C3 claim -/

/-- C3 (counterexample): a PathIntegrator with zero leak and unit gain,
updated with heading 0 and unit speed for total time T = 1 (100 steps of
dt = 0.01), yields a home-vector distance of exactly 2, not approximately
T = 1: the 8-unit population decode scales the travelled distance by 2. -/
theorem c3_counterexample :
    (home_vector ((fun m => cpu4_update 0 1 0 1 (1 / 100) m)^[100] (fun _ => 0))).distance
        = 2
    ∧ (home_vector ((fun m => cpu4_update 0 1 0 1 (1 / 100) m)^[100] (fun _ => 0))).distance
        ≠ 1 := by
  have h := (cpu4_north_home 100 (1 / 100) (by norm_num) (by norm_num)).1
  have e : 2 * (((100 : ℕ) : ℝ) * (1 / 100)) = 2 := by norm_num
  rw [e] at h
  exact ⟨h, by rw [h]; norm_num⟩

/-- C3 (amended): for every step count k > 0 and timestep dt > 0, a
PathIntegrator with zero leak and unit gain updated with heading 0 and unit
speed for total time T = k * dt yields home_vector().distance exactly
2 * T (the 8-unit rectified-cosine decode doubles the distance) and
direction exactly pi (pointing back south), as the code computes them. -/
theorem c3_path_integration_north (k : ℕ) (dt : ℝ) (hk : 0 < k) (hdt : 0 < dt) :
    (home_vector ((fun m => cpu4_update 0 1 0 1 dt m)^[k] (fun _ => 0))).distance
        = 2 * (k * dt)
    ∧ (home_vector ((fun m => cpu4_update 0 1 0 1 dt m)^[k] (fun _ => 0))).direction
        = π :=
  cpu4_north_home k dt hk hdt

/-- Witness for C3's amended theorem at k = 1, dt = 1. -/
theorem c3_path_integration_north_witness :
    (home_vector ((fun m => cpu4_update 0 1 0 1 1 m)^[1] (fun _ => 0))).distance
        = 2 * ((1 : ℕ) * 1)
    ∧ (home_vector ((fun m => cpu4_update 0 1 0 1 1 m)^[1] (fun _ => 0))).direction
        = π :=
  c3_path_integration_north 1 1 (by norm_num) (by norm_num)

/-! ## C6: ring-attractor bump stability at the unit directions -/

theorem raTheta_eq_cpu4Phi (i : Fin 8) : raTheta i = cpu4Phi i := rfl

theorem fin8_sub_val (a b : Fin 8) : (a - b).val = (8 - b.val + a.val) % 8 := by
  rw [Fin.sub_def]

/-- On the 8-unit ring, the angle difference of two preferred directions
agrees with the preferred direction of the index difference up to a full
turn, so its cosine is the cosine of the latter. -/
theorem cos_theta_diff (a b : Fin 8) :
    Real.cos (raTheta a - raTheta b) = Real.cos (raTheta (a - b)) := by
  have hv := fin8_sub_val a b
  have ha := a.isLt
  have hb := b.isLt
  by_cases h : b.val ≤ a.val
  · have e : (a - b).val = a.val - b.val := by omega
    have e2 : ((a - b).val : ℝ) = (a.val : ℝ) - b.val := by
      have : (a - b).val + b.val = a.val := by omega
      have := congrArg (fun t : ℕ => (t : ℝ)) this
      push_cast at this
      linarith
    unfold raTheta
    rw [e2]
    ring_nf
  · have e2 : ((a - b).val : ℝ) = (a.val : ℝ) + 8 - b.val := by
      have : (a - b).val + b.val = a.val + 8 := by omega
      have := congrArg (fun t : ℕ => (t : ℝ)) this
      push_cast at this
      linarith
    have e3 : raTheta (a - b) = (raTheta a - raTheta b) + 2 * π := by
      unfold raTheta
      rw [e2]
      ring
    rw [e3, Real.cos_add_two_pi]

/-- The unit phasor of a shifted index is the product of the phasors. -/
theorem exp_theta_add (k j : Fin 8) :
    Complex.exp ((raTheta (k + j) : ℂ) * Complex.I)
      = Complex.exp ((raTheta k : ℂ) * Complex.I)
        * Complex.exp ((raTheta j : ℂ) * Complex.I) := by
  have hv : (k + j).val = (k.val + j.val) % 8 := rfl
  have hk := k.isLt
  have hj := j.isLt
  rw [← Complex.exp_add]
  by_cases h : k.val + j.val < 8
  · have e2 : ((k + j).val : ℝ) = (k.val : ℝ) + j.val := by
      have : (k + j).val = k.val + j.val := by omega
      rw [this]
      push_cast
      ring
    congr 1
    unfold raTheta
    rw [Complex.ofReal_div, Complex.ofReal_mul, Complex.ofReal_mul, e2]
    push_cast
    ring
  · have e2 : ((k + j).val : ℝ) = (k.val : ℝ) + j.val - 8 := by
      have : (k + j).val + 8 = k.val + j.val := by omega
      have := congrArg (fun t : ℕ => (t : ℝ)) this
      push_cast at this
      linarith
    have e3 : ((raTheta (k + j) : ℝ) : ℂ) * Complex.I
        = ((raTheta k + raTheta j : ℝ) : ℂ) * Complex.I - 2 * π * Complex.I := by
      unfold raTheta
      rw [Complex.ofReal_div, Complex.ofReal_mul, Complex.ofReal_mul, e2]
      push_cast
      ring
    rw [e3, Complex.exp_sub, Complex.exp_two_pi_mul_I, div_one]
    congr 1
    push_cast
    ring

/-- The default excitatory weight depends only on the index difference. -/
theorem raW_default (i j : Fin 8) :
    raW raDefault i j = 1.5 * max 0 (Real.cos (raTheta (i - j))) := by
  unfold raW raDefault
  rw [cos_theta_diff]

/-- RingAttractor::step with no compass input, zero angular velocity and zero
noise, one component spelled out. -/
theorem raStep_noinput (p : RAParams) (dt : ℝ) (r : Fin 8 → ℝ) (i : Fin 8) :
    raStep p dt r none 0 (fun _ => 0) i
      = clampR (r i + (-(r i)
          + clampR ((∑ j, raW p i j * r j) - p.w_inh * ((∑ k, r k) / 8)
              - p.threshold) 0 p.r_max) / p.tau * dt) 0 p.r_max := by
  unfold raStep
  dsimp only
  rw [if_neg (by norm_num : ¬ (0 : ℝ) ≠ 0)]
  norm_num

/-- The no-input step dynamics commute with ring rotation. -/
theorem raStep_rot (p : RAParams) (dt : ℝ) (j : Fin 8) (r : Fin 8 → ℝ) :
    raStep p dt (rotB j r) none 0 (fun _ => 0)
      = rotB j (raStep p dt r none 0 (fun _ => 0)) := by
  funext i
  have hsum : (∑ k, rotB j r k) = ∑ k, r k := by
    unfold rotB
    exact Fintype.sum_equiv (Equiv.subRight j) _ _ (fun k => rfl)
  have hexc : (∑ k, raW p i k * rotB j r k) = ∑ k, raW p (i - j) k * r k := by
    unfold rotB
    refine Fintype.sum_equiv (Equiv.subRight j) _ _ (fun k => ?_)
    have e1 : (Equiv.subRight j) k = k - j := rfl
    rw [e1]
    congr 1
    unfold raW
    rw [cos_theta_diff, cos_theta_diff, sub_sub_sub_cancel_right]
  show raStep p dt (rotB j r) none 0 (fun _ => 0) i
      = raStep p dt r none 0 (fun _ => 0) (i - j)
  rw [raStep_noinput, raStep_noinput, hsum, hexc]
  rfl

theorem sqrt2_sq : Real.sqrt 2 * Real.sqrt 2 = 2 := Real.mul_self_sqrt (by norm_num)

theorem sqrt2_lb : 1.414 ≤ Real.sqrt 2 := by
  nlinarith [sqrt2_sq, Real.sqrt_nonneg 2]

theorem sqrt2_ub : Real.sqrt 2 ≤ 1.415 := by
  nlinarith [sqrt2_sq, Real.sqrt_nonneg 2]

theorem raTheta_0 : raTheta 0 = 0 := by rw [raTheta_eq_cpu4Phi]; exact cpu4Phi_0

theorem raTheta_1 : raTheta 1 = π / 4 := by rw [raTheta_eq_cpu4Phi]; exact cpu4Phi_1

theorem raTheta_2 : raTheta 2 = π / 2 := by rw [raTheta_eq_cpu4Phi]; exact cpu4Phi_2

theorem raTheta_3 : raTheta 3 = 3 * π / 4 := by rw [raTheta_eq_cpu4Phi]; exact cpu4Phi_3

theorem raTheta_4 : raTheta 4 = π := by rw [raTheta_eq_cpu4Phi]; exact cpu4Phi_4

theorem raTheta_5 : raTheta 5 = 5 * π / 4 := by rw [raTheta_eq_cpu4Phi]; exact cpu4Phi_5

theorem raTheta_6 : raTheta 6 = 3 * π / 2 := by rw [raTheta_eq_cpu4Phi]; exact cpu4Phi_6

theorem raTheta_7 : raTheta 7 = 7 * π / 4 := by rw [raTheta_eq_cpu4Phi]; exact cpu4Phi_7

theorem raReset_comp (h : ℝ) (i : Fin 8) :
    raReset h i = max 0 (0.5 * Real.cos (raTheta i - h)) := by
  unfold raReset
  rw [cos_wrapPi]

theorem raReset_theta0_mem : stableD (raReset (raTheta 0)) := by
  have hs2 : (0 : ℝ) ≤ Real.sqrt 2 := Real.sqrt_nonneg 2
  have comp : ∀ i : Fin 8, raReset (raTheta 0) i = max 0 (0.5 * Real.cos (raTheta i)) := by
    intro i
    rw [raReset_comp, raTheta_0, sub_zero]
  refine ⟨?_, ?_, ?_, ?_, ?_, ?_, ?_, ?_, ?_, ?_⟩
  · rw [comp 2, raTheta_2, Real.cos_pi_div_two]
    norm_num
  · rw [comp 3, raTheta_3, cos_three_pi_div_four]
    rw [max_eq_left (by nlinarith)]
  · rw [comp 4, raTheta_4, Real.cos_pi]
    rw [max_eq_left (by norm_num)]
  · rw [comp 5, raTheta_5, cos_five_pi_div_four]
    rw [max_eq_left (by nlinarith)]
  · rw [comp 6, raTheta_6, cos_three_pi_div_two]
    norm_num
  · rw [comp 7, raTheta_7, cos_seven_pi_div_four, comp 1, raTheta_1,
      Real.cos_pi_div_four]
  · rw [comp 0, raTheta_0, Real.cos_zero]
    norm_num
  · rw [comp 0, raTheta_0, Real.cos_zero]
    norm_num
  · rw [comp 1, raTheta_1, Real.cos_pi_div_four,
      max_eq_right (by nlinarith : (0 : ℝ) ≤ 0.5 * (Real.sqrt 2 / 2))]
    nlinarith
  · rw [comp 1, raTheta_1, Real.cos_pi_div_four,
      max_eq_right (by nlinarith : (0 : ℝ) ≤ 0.5 * (Real.sqrt 2 / 2))]
    nlinarith [sqrt2_ub]

theorem stableD_z (r : Fin 8 → ℝ) (hr : stableD r) :
    raZ r = ((r 0 + Real.sqrt 2 * r 1 : ℝ) : ℂ) := by
  obtain ⟨h2, h3, h4, h5, h6, h71, _, _, _, _⟩ := hr
  unfold raZ
  rw [Fin.sum_univ_eight, h2, h3, h4, h5, h6, h71]
  simp only [Complex.ofReal_zero, zero_mul, add_zero]
  rw [raTheta_0, raTheta_1, raTheta_7]
  rw [Complex.ofReal_zero, zero_mul, Complex.exp_zero, mul_one]
  rw [Complex.exp_mul_I, Complex.exp_mul_I]
  rw [← Complex.ofReal_cos, ← Complex.ofReal_sin, ← Complex.ofReal_cos,
    ← Complex.ofReal_sin]
  rw [Real.cos_pi_div_four, Real.sin_pi_div_four, cos_seven_pi_div_four,
    sin_seven_pi_div_four]
  push_cast
  ring

theorem stableD_abs_pos (r : Fin 8 → ℝ) (hr : stableD r) :
    1 / 2 ≤ r 0 + Real.sqrt 2 * r 1 := by
  obtain ⟨_, _, _, _, _, _, hr0, _, hr1, _⟩ := hr
  have hs2 : (0 : ℝ) ≤ Real.sqrt 2 := Real.sqrt_nonneg 2
  nlinarith

theorem stableD_heading (r : Fin 8 → ℝ) (hr : stableD r) : raHeading r = 0 := by
  have hz := stableD_z r hr
  have hge := stableD_abs_pos r hr
  unfold raHeading
  rw [hz, Complex.abs_ofReal, abs_of_pos (by linarith)]
  rw [if_neg (by norm_num; linarith)]
  rw [Complex.arg_ofReal_of_nonneg (by linarith)]
  rw [if_neg (lt_irrefl 0)]

theorem raZ_rotB (j : Fin 8) (r : Fin 8 → ℝ) :
    raZ (rotB j r) = raZ r * Complex.exp ((raTheta j : ℂ) * Complex.I) := by
  unfold raZ rotB
  have e1 : (∑ i, ((r (i - j) : ℝ) : ℂ) * Complex.exp ((raTheta i : ℂ) * Complex.I))
      = ∑ k, ((r k : ℝ) : ℂ) * Complex.exp ((raTheta (k + j) : ℂ) * Complex.I) := by
    refine Fintype.sum_equiv (Equiv.subRight j) _ _ (fun k => ?_)
    have e : (Equiv.subRight j) k = k - j := rfl
    rw [e, sub_add_cancel]
  rw [e1]
  rw [Finset.sum_mul]
  refine Finset.sum_congr rfl (fun k _ => ?_)
  rw [exp_theta_add, mul_assoc]

theorem clamp_nonpos (v : ℝ) (hv : v ≤ 0) : clampR v 0 1 = 0 := by
  unfold clampR
  rcases lt_or_eq_of_le hv with h | h
  · rw [if_pos h]
  · rw [h]
    norm_num

theorem clamp_id (v : ℝ) (h0 : 0 ≤ v) (h1 : v ≤ 1) : clampR v 0 1 = v := by
  unfold clampR
  rw [if_neg (not_lt.mpr h0), if_neg (not_lt.mpr h1)]

theorem clamp_ge_one (v : ℝ) (h1 : 1 ≤ v) : clampR v 0 1 = 1 := by
  unfold clampR
  rw [if_neg (not_lt.mpr (by linarith))]
  rcases lt_or_eq_of_le h1 with h | h
  · rw [if_pos h]
  · rw [← h, if_neg (lt_irrefl 1)]

theorem raW_diff_0 (i j : Fin 8) (h : i - j = 0) : raW raDefault i j = 1.5 := by
  rw [raW_default, h, raTheta_0, Real.cos_zero, max_eq_right zero_le_one, mul_one]

theorem raW_diff_1 (i j : Fin 8) (h : i - j = 1) :
    raW raDefault i j = 1.5 * (Real.sqrt 2 / 2) := by
  rw [raW_default, h, raTheta_1, Real.cos_pi_div_four,
    max_eq_right (by positivity : (0 : ℝ) ≤ Real.sqrt 2 / 2)]

theorem raW_diff_7 (i j : Fin 8) (h : i - j = 7) :
    raW raDefault i j = 1.5 * (Real.sqrt 2 / 2) := by
  rw [raW_default, h, raTheta_7, cos_seven_pi_div_four,
    max_eq_right (by positivity : (0 : ℝ) ≤ Real.sqrt 2 / 2)]

theorem raW_diff_2 (i j : Fin 8) (h : i - j = 2) : raW raDefault i j = 0 := by
  rw [raW_default, h, raTheta_2, Real.cos_pi_div_two, max_self, mul_zero]

theorem raW_diff_6 (i j : Fin 8) (h : i - j = 6) : raW raDefault i j = 0 := by
  rw [raW_default, h, raTheta_6, cos_three_pi_div_two, max_self, mul_zero]

theorem raW_diff_3 (i j : Fin 8) (h : i - j = 3) : raW raDefault i j = 0 := by
  have hs2 : (0 : ℝ) ≤ Real.sqrt 2 := Real.sqrt_nonneg 2
  rw [raW_default, h, raTheta_3, cos_three_pi_div_four,
    max_eq_left (by nlinarith), mul_zero]

theorem raW_diff_4 (i j : Fin 8) (h : i - j = 4) : raW raDefault i j = 0 := by
  rw [raW_default, h, raTheta_4, Real.cos_pi, max_eq_left (by norm_num), mul_zero]

theorem raW_diff_5 (i j : Fin 8) (h : i - j = 5) : raW raDefault i j = 0 := by
  have hs2 : (0 : ℝ) ≤ Real.sqrt 2 := Real.sqrt_nonneg 2
  rw [raW_default, h, raTheta_5, cos_five_pi_div_four,
    max_eq_left (by nlinarith), mul_zero]

set_option maxHeartbeats 2000000 in
/-- The invariant region is preserved by one no-input step of the default
dynamics for any timestep in (0, tau]. -/
theorem stableD_step (dt : ℝ) (hdt1 : 0 < dt) (hdt2 : dt ≤ 1 / 20) (r : Fin 8 → ℝ)
    (hr : stableD r) : stableD (raStep raDefault dt r none 0 (fun _ => 0)) := by
  obtain ⟨hr2, hr3, hr4, hr5, hr6, hr71, hr0l, hr0u, hr1l, hr1u⟩ := hr
  have hs2 : (0 : ℝ) ≤ Real.sqrt 2 := Real.sqrt_nonneg 2
  have hsq := sqrt2_sq
  have hlb := sqrt2_lb
  have hub := sqrt2_ub
  have hr1pos : (0 : ℝ) ≤ r 1 := le_trans (by positivity) hr1l
  have hr0pos : (0 : ℝ) ≤ r 0 := by linarith
  have hsum : (∑ k, r k) = r 0 + 2 * r 1 := by
    rw [Fin.sum_univ_eight, hr2, hr3, hr4, hr5, hr6, hr71]
    ring
  have hstep : ∀ i, raStep raDefault dt r none 0 (fun _ => 0) i
      = clampR (r i + (-(r i)
          + clampR ((∑ k, raW raDefault i k * r k)
              - 4.5 * ((r 0 + 2 * r 1) / 8) - 0) 0 1) / 0.05 * dt) 0 1 := by
    intro i
    rw [raStep_noinput, hsum]
    rfl
  have hexc : ∀ i : Fin 8, (∑ k, raW raDefault i k * r k)
      = raW raDefault i 0 * r 0 + (raW raDefault i 1 + raW raDefault i 7) * r 1 := by
    intro i
    rw [Fin.sum_univ_eight, hr2, hr3, hr4, hr5, hr6, hr71]
    ring
  -- silent components stay silent: their drive is nonpositive
  have comp2 : raStep raDefault dt r none 0 (fun _ => 0) 2 = 0 := by
    rw [hstep 2, hexc 2, raW_diff_2 2 0 rfl, raW_diff_1 2 1 rfl, raW_diff_3 2 7 rfl]
    rw [clamp_nonpos (0 * r 0 + (1.5 * (Real.sqrt 2 / 2) + 0) * r 1 - 4.5 * ((r 0 + 2 * r 1) / 8) - 0) (by nlinarith [mul_le_mul_of_nonneg_right (by nlinarith : 1.5 * (Real.sqrt 2 / 2) ≤ 9 / 8) hr1pos, hr0pos]), hr2]
    norm_num [clampR]
  have comp3 : raStep raDefault dt r none 0 (fun _ => 0) 3 = 0 := by
    rw [hstep 3, hexc 3, raW_diff_3 3 0 rfl, raW_diff_2 3 1 rfl, raW_diff_4 3 7 rfl]
    rw [clamp_nonpos (0 * r 0 + (0 + 0) * r 1 - 4.5 * ((r 0 + 2 * r 1) / 8) - 0) (by nlinarith [hr0pos, hr1pos]), hr3]
    norm_num [clampR]
  have comp4 : raStep raDefault dt r none 0 (fun _ => 0) 4 = 0 := by
    rw [hstep 4, hexc 4, raW_diff_4 4 0 rfl, raW_diff_3 4 1 rfl, raW_diff_5 4 7 rfl]
    rw [clamp_nonpos (0 * r 0 + (0 + 0) * r 1 - 4.5 * ((r 0 + 2 * r 1) / 8) - 0) (by nlinarith [hr0pos, hr1pos]), hr4]
    norm_num [clampR]
  have comp5 : raStep raDefault dt r none 0 (fun _ => 0) 5 = 0 := by
    rw [hstep 5, hexc 5, raW_diff_5 5 0 rfl, raW_diff_4 5 1 rfl, raW_diff_6 5 7 rfl]
    rw [clamp_nonpos (0 * r 0 + (0 + 0) * r 1 - 4.5 * ((r 0 + 2 * r 1) / 8) - 0) (by nlinarith [hr0pos, hr1pos]), hr5]
    norm_num [clampR]
  have comp6 : raStep raDefault dt r none 0 (fun _ => 0) 6 = 0 := by
    rw [hstep 6, hexc 6, raW_diff_6 6 0 rfl, raW_diff_5 6 1 rfl, raW_diff_7 6 7 rfl]
    rw [clamp_nonpos (0 * r 0 + (0 + 1.5 * (Real.sqrt 2 / 2)) * r 1 - 4.5 * ((r 0 + 2 * r 1) / 8) - 0) (by nlinarith [mul_le_mul_of_nonneg_right (by nlinarith : 1.5 * (Real.sqrt 2 / 2) ≤ 9 / 8) hr1pos, hr0pos]), hr6]
    norm_num [clampR]
  -- the peak unit
  have hD0l : (1 : ℝ) / 2
      ≤ 1.5 * r 0 + (1.5 * (Real.sqrt 2 / 2) + 1.5 * (Real.sqrt 2 / 2)) * r 1
        - 4.5 * ((r 0 + 2 * r 1) / 8) - 0 := by
    have hc : (0 : ℝ) ≤ 1.5 * Real.sqrt 2 - 9 / 8 := by nlinarith
    nlinarith [mul_le_mul_of_nonneg_left hr1l hc]
  have hact0 : 1 / 2 ≤ clampR (1.5 * r 0
        + (1.5 * (Real.sqrt 2 / 2) + 1.5 * (Real.sqrt 2 / 2)) * r 1
        - 4.5 * ((r 0 + 2 * r 1) / 8) - 0) 0 1
      ∧ clampR (1.5 * r 0 + (1.5 * (Real.sqrt 2 / 2) + 1.5 * (Real.sqrt 2 / 2)) * r 1
        - 4.5 * ((r 0 + 2 * r 1) / 8) - 0) 0 1 ≤ 1 := by
    rcases le_or_lt (1.5 * r 0 + (1.5 * (Real.sqrt 2 / 2) + 1.5 * (Real.sqrt 2 / 2)) * r 1
        - 4.5 * ((r 0 + 2 * r 1) / 8) - 0) 1 with h | h
    · rw [clamp_id _ (by linarith) h]
      exact ⟨hD0l, h⟩
    · rw [clamp_ge_one _ h.le]
      norm_num
  have comp0 : 1 / 2 ≤ raStep raDefault dt r none 0 (fun _ => 0) 0
      ∧ raStep raDefault dt r none 0 (fun _ => 0) 0 ≤ 1 := by
    rw [hstep 0, hexc 0, raW_diff_0 0 0 rfl, raW_diff_7 0 1 rfl, raW_diff_1 0 7 rfl]
    obtain ⟨ha1, ha2⟩ := hact0
    set a := clampR (1.5 * r 0 + (1.5 * (Real.sqrt 2 / 2) + 1.5 * (Real.sqrt 2 / 2)) * r 1
        - 4.5 * ((r 0 + 2 * r 1) / 8) - 0) 0 1 with hadef
    have hv : r 0 + (-(r 0) + a) / 0.05 * dt
        = r 0 + 20 * dt * (a - r 0) := by ring
    rw [hv]
    have hvl : 1 / 2 ≤ r 0 + 20 * dt * (a - r 0) := by
      nlinarith [mul_nonneg (sub_nonneg.2 hr0l)
          (sub_nonneg.2 (by linarith : 20 * dt ≤ 1)),
        mul_nonneg (by linarith : (0 : ℝ) ≤ 20 * dt) (sub_nonneg.2 ha1)]
    have hvu : r 0 + 20 * dt * (a - r 0) ≤ 1 := by
      nlinarith [mul_nonneg (sub_nonneg.2 hr0u)
          (sub_nonneg.2 (by linarith : 20 * dt ≤ 1)),
        mul_nonneg (by linarith : (0 : ℝ) ≤ 20 * dt) (sub_nonneg.2 ha2)]
    rw [clamp_id _ (by linarith) hvu]
    exact ⟨hvl, hvu⟩
  -- the side lobe
  have hD1l : Real.sqrt 2 / 4
      ≤ 1.5 * (Real.sqrt 2 / 2) * r 0 + (1.5 + 0) * r 1
        - 4.5 * ((r 0 + 2 * r 1) / 8) - 0 := by
    have hc : (0 : ℝ) ≤ 1.5 * (Real.sqrt 2 / 2) - 9 / 16 := by nlinarith
    nlinarith [mul_le_mul_of_nonneg_left hr0l hc]
  have hD1u : 1.5 * (Real.sqrt 2 / 2) * r 0 + (1.5 + 0) * r 1
        - 4.5 * ((r 0 + 2 * r 1) / 8) - 0 ≤ 1 := by
    nlinarith [mul_le_mul_of_nonneg_left hr0u
      (by nlinarith : (0 : ℝ) ≤ 1.5 * (Real.sqrt 2 / 2) - 9 / 16)]
  have hact1 : clampR (1.5 * (Real.sqrt 2 / 2) * r 0 + (1.5 + 0) * r 1
        - 4.5 * ((r 0 + 2 * r 1) / 8) - 0) 0 1
      = 1.5 * (Real.sqrt 2 / 2) * r 0 + (1.5 + 0) * r 1
        - 4.5 * ((r 0 + 2 * r 1) / 8) - 0 :=
    clamp_id _ (by nlinarith) hD1u
  have comp1 : Real.sqrt 2 / 4 ≤ raStep raDefault dt r none 0 (fun _ => 0) 1
      ∧ raStep raDefault dt r none 0 (fun _ => 0) 1 ≤ 1 := by
    rw [hstep 1, hexc 1, raW_diff_1 1 0 rfl, raW_diff_0 1 1 rfl, raW_diff_2 1 7 rfl]
    rw [hact1]
    set b := 1.5 * (Real.sqrt 2 / 2) * r 0 + (1.5 + 0) * r 1
        - 4.5 * ((r 0 + 2 * r 1) / 8) - 0 with hbdef
    have hv : r 1 + (-(r 1) + b) / 0.05 * dt = r 1 + 20 * dt * (b - r 1) := by ring
    rw [hv]
    have hvl : Real.sqrt 2 / 4 ≤ r 1 + 20 * dt * (b - r 1) := by
      nlinarith [mul_nonneg (sub_nonneg.2 hr1l)
          (sub_nonneg.2 (by linarith : 20 * dt ≤ 1)),
        mul_nonneg (by linarith : (0 : ℝ) ≤ 20 * dt) (sub_nonneg.2 hD1l)]
    have hvu : r 1 + 20 * dt * (b - r 1) ≤ 1 := by
      nlinarith [mul_nonneg (sub_nonneg.2 hr1u)
          (sub_nonneg.2 (by linarith : 20 * dt ≤ 1)),
        mul_nonneg (by linarith : (0 : ℝ) ≤ 20 * dt) (sub_nonneg.2 hD1u)]
    rw [clamp_id _ (le_trans (by positivity) hvl) hvu]
    exact ⟨hvl, hvu⟩
  -- the two side lobes stay equal
  have comp71 : raStep raDefault dt r none 0 (fun _ => 0) 7
      = raStep raDefault dt r none 0 (fun _ => 0) 1 := by
    rw [hstep 7, hstep 1, hexc 7, hexc 1, raW_diff_7 7 0 rfl, raW_diff_6 7 1 rfl,
      raW_diff_0 7 7 rfl, raW_diff_1 1 0 rfl, raW_diff_0 1 1 rfl, raW_diff_2 1 7 rfl,
      hr71]
    congr 2
    ring_nf
  exact ⟨comp2, comp3, comp4, comp5, comp6, comp71, comp0.1, comp0.2,
    comp1.1, comp1.2⟩

theorem arg_exp_wrap (θ : ℝ) (h0 : 0 ≤ θ) (h2 : θ < 2 * π) :
    (if Complex.arg (Complex.exp ((θ : ℂ) * Complex.I)) < 0
      then Complex.arg (Complex.exp ((θ : ℂ) * Complex.I)) + 2 * π
      else Complex.arg (Complex.exp ((θ : ℂ) * Complex.I))) = θ := by
  by_cases hp : θ ≤ π
  · have ha : Complex.arg (Complex.exp ((θ : ℂ) * Complex.I)) = θ := by
      rw [Complex.exp_mul_I]
      exact Complex.arg_cos_add_sin_mul_I ⟨by linarith [Real.pi_pos], hp⟩
    rw [ha, if_neg (not_lt.mpr h0)]
  · have he : (θ : ℂ) * Complex.I
        = ((θ - 2 * π : ℝ) : ℂ) * Complex.I + 2 * π * Complex.I := by
      push_cast
      ring
    have ha : Complex.arg (Complex.exp ((θ : ℂ) * Complex.I)) = θ - 2 * π := by
      rw [he, Complex.exp_add, Complex.exp_two_pi_mul_I, mul_one, Complex.exp_mul_I]
      exact Complex.arg_cos_add_sin_mul_I ⟨by linarith, by linarith [Real.pi_pos]⟩
    rw [ha, if_pos (by linarith [Real.pi_pos])]
    ring

theorem raHeading_rotB (j : Fin 8) (r : Fin 8 → ℝ) (hr : stableD r) :
    raHeading (rotB j r) = raTheta j := by
  have hz := raZ_rotB j r
  rw [stableD_z r hr] at hz
  have hge := stableD_abs_pos r hr
  have hθ0 : 0 ≤ raTheta j := by
    unfold raTheta
    positivity
  have hθ2 : raTheta j < 2 * π := by
    unfold raTheta
    have hj : (j.val : ℝ) < 8 := by exact_mod_cast j.isLt
    nlinarith [mul_pos Real.pi_pos (by linarith : (0 : ℝ) < 8 - j.val)]
  unfold raHeading
  rw [hz]
  rw [map_mul Complex.abs, Complex.abs_ofReal, Complex.abs_exp_ofReal_mul_I, mul_one,
    abs_of_pos (by linarith)]
  rw [if_neg (by norm_num; linarith)]
  rw [Complex.arg_real_mul _ (by linarith : (0 : ℝ) < r 0 + Real.sqrt 2 * r 1)]
  exact arg_exp_wrap (raTheta j) hθ0 hθ2

theorem raIter_rot (dt : ℝ) (j : Fin 8) (n : ℕ) :
    (fun s => raStep raDefault dt s none 0 (fun _ => 0))^[n] (raReset (raTheta j))
      = rotB j
          ((fun s => raStep raDefault dt s none 0 (fun _ => 0))^[n]
            (raReset (raTheta 0))) := by
  have hreset : raReset (raTheta j) = rotB j (raReset (raTheta 0)) := by
    funext i
    unfold rotB
    rw [raReset_comp, raReset_comp, raTheta_0, sub_zero, cos_theta_diff]
  induction n with
  | zero =>
    simp only [Function.iterate_zero, id]
    exact hreset
  | succ m ih =>
    rw [Function.iterate_succ_apply', Function.iterate_succ_apply', ih, raStep_rot]

theorem raIter_mem (dt : ℝ) (h1 : 0 < dt) (h2 : dt ≤ 1 / 20) (n : ℕ) :
    stableD ((fun s => raStep raDefault dt s none 0 (fun _ => 0))^[n]
      (raReset (raTheta 0))) := by
  induction n with
  | zero => simpa using raReset_theta0_mem
  | succ m ih =>
    rw [Function.iterate_succ_apply']
    exact stableD_step dt h1 h2 _ ih

/-- Bump stability on the representable lattice: for a heading equal to one
of the ring's preferred directions theta_j = 2 pi j / 8, after reset followed
by any number of no-input steps at the default construction parameters and
any timestep 0 < dt <= tau, the decoded heading remains exactly theta_j.
(For intermediate headings the bump drifts toward the lattice; that drift is
not bounded here.) -/
theorem lattice_bump_stability (j : Fin 8) (dt : ℝ) (h1 : 0 < dt)
    (h2 : dt ≤ raDefault.tau) (n : ℕ) :
    raHeading ((fun s => raStep raDefault dt s none 0 (fun _ => 0))^[n]
        (raReset (raTheta j)))
      = raTheta j := by
  have htau : raDefault.tau = 1 / 20 := by norm_num [raDefault]
  rw [htau] at h2
  rw [raIter_rot]
  exact raHeading_rotB j _ (raIter_mem dt h1 h2 n)

end

end Mayajiva
